import Mathlib

/-!
Verification of the scalatrix core (MOS / Scale / affine-transform layer).

This file is a shallow embedding of the C++ sources `src/mos.cpp`,
`src/scale.cpp` and the headers `include/scalatrix/mos.hpp`,
`include/scalatrix/scale.hpp`.  C++ `double` arithmetic is embedded as exact
rational arithmetic (`ℚ`); the final `pitch = base_freq * exp2(x)` conversion
is embedded over `ℝ`.  C++ `int` is embedded as `ℤ` (with C truncated
division `Int.tdiv` / `Int.tmod` where the source uses `/` and `%`).

The repository's `affine_transform.hpp` / `lattice.hpp` /
`linear_solver.hpp` are not among the available sources (only their callers
are); the definitions that come from them are marked
`Modelled from the spec:` and follow spec.md sections 4.1-4.3.
`affineFromThreeDots` itself is present (`params.cpp`) and is embedded
below; only the `LinearSolver6x6::solve` it calls is spec-modelled.  The
strip-sampling function `findClosestWithinStrip` is missing, so scale
generation is parameterised over the step pair `(r, s)` it would return,
and the spec's description of that pair is captured by the predicate
`specStepPair` below.
-/

namespace Scalatrix

/-- Real-valued affine transform `(a, b, c, d, tx, ty)` with
`apply (x,y) = (a*x + b*y + tx, c*x + d*y + ty)` (spec §3, §4.2;
used throughout `mos.cpp` / `scale.cpp`). -/
structure AffineTransform where
  a : ℚ
  b : ℚ
  c : ℚ
  d : ℚ
  tx : ℚ
  ty : ℚ
deriving DecidableEq, Repr

/-- Embedding of `AffineTransform::apply` on a real point. -/
def AffineTransform.apply (T : AffineTransform) (v : ℚ × ℚ) : ℚ × ℚ :=
  (T.a * v.1 + T.b * v.2 + T.tx, T.c * v.1 + T.d * v.2 + T.ty)

/-- Embedding of `AffineTransform::apply` on an integer lattice point
(`A * Vector2i`). -/
def AffineTransform.applyI (T : AffineTransform) (v : ℤ × ℤ) : ℚ × ℚ :=
  T.apply ((v.1 : ℚ), (v.2 : ℚ))

/-- Modelled from the spec: the default-constructed `AffineTransform()` is
the identity map (used in `MOS::retuneTwoPoints` as the base for a pure
x-axis scaling). -/
def AffineTransform.ident : AffineTransform :=
  ⟨1, 0, 0, 1, 0, 0⟩

/-- Composition `compose(Outer, Inner)`: applies `Inner` first (spec §3).
`(T.comp U).apply v = T.apply (U.apply v)`. -/
def AffineTransform.comp (T U : AffineTransform) : AffineTransform :=
  ⟨T.a * U.a + T.b * U.c, T.a * U.b + T.b * U.d,
   T.c * U.a + T.d * U.c, T.c * U.b + T.d * U.d,
   T.a * U.tx + T.b * U.ty + T.tx,
   T.c * U.tx + T.d * U.ty + T.ty⟩

/-- The linear part of a transform: translation stripped
(`M = AffineTransform(A); M.tx = 0; M.ty = 0;` in `Scale::recalcWithAffine`). -/
def AffineTransform.lin (T : AffineTransform) : AffineTransform :=
  { T with tx := 0, ty := 0 }

/-- Determinant of the linear part (`ad - bc`). -/
def AffineTransform.det (T : AffineTransform) : ℚ :=
  T.a * T.d - T.b * T.c

theorem comp_apply (T U : AffineTransform) (v : ℚ × ℚ) :
    (T.comp U).apply v = T.apply (U.apply v) := by
  simp only [AffineTransform.comp, AffineTransform.apply, Prod.mk.injEq]
  constructor <;> ring

/-- The strip `0 ≤ y < 1` (spec §3: the region of transformed lattice space
whose contained points form the scale). -/
def inStrip (t : ℚ) : Prop := 0 ≤ t ∧ t < 1

instance (t : ℚ) : Decidable (inStrip t) := by
  unfold inStrip; infer_instance

/-- A scale node: exact lattice position and its image under the current
affine transform (spec §3, `Node`).  The `pitch` field of the C++ `Node`
(`= base_freq * exp2(tuning_coord.x)`, a `double`) is modelled separately
by `recalcPitch` below, since it is the only real-power computation. -/
structure Node where
  natural : ℤ × ℤ
  tuning : ℚ × ℚ
deriving DecidableEq, Repr

/-! ### Brightness path (`mos.cpp`: `calcPath`, `applyPath`, `applyPathReverse`) -/

/-- One iteration of the `while` loop of `calcPath`, expressed with fuel
(the C++ loop terminates for the coprime inputs it is called with;
`calcPathAux 0` is unreachable fuel exhaustion).  The loop records which side
was reduced and the final `std::reverse` puts the first-recorded choice last,
which is the `++ [choice]` below. -/
def calcPathAux : ℕ → ℕ → ℕ → List Bool
  | 0, _, _ => []
  | fuel + 1, a, b =>
    if 1 < a ∨ 1 < b then
      if b < a then calcPathAux fuel (a - b) b ++ [false]
      else calcPathAux fuel a (b - a) ++ [true]
    else []

/-- Embedding of `calcPath(a, b)` from `mos.cpp`. -/
def calcPath (a b : ℕ) : List Bool :=
  calcPathAux (a + b) a b

/-- One step of `applyPath`: `if (p) b += a; else a += b;`. -/
def pathStep (v : ℤ × ℤ) (p : Bool) : ℤ × ℤ :=
  if p then (v.1, v.2 + v.1) else (v.1 + v.2, v.2)

/-- One step of `applyPathReverse`: `if (p) b -= a; else a -= b;`. -/
def pathStepInv (v : ℤ × ℤ) (p : Bool) : ℤ × ℤ :=
  if p then (v.1, v.2 - v.1) else (v.1 - v.2, v.2)

/-- Embedding of `applyPath(path, v)` from `mos.cpp`: fold the steps over
`v`. -/
def applyPath (path : List Bool) (v : ℤ × ℤ) : ℤ × ℤ :=
  path.foldl pathStep v

/-- Embedding of `applyPathReverse(path, v)` from `mos.cpp`: fold the
inverse steps over
`v` in reversed path order. -/
def applyPathReverse (path : List Bool) (v : ℤ × ℤ) : ℤ × ℤ :=
  path.reverse.foldl pathStepInv v

theorem pathStepInv_pathStep (p : Bool) (v : ℤ × ℤ) :
    pathStepInv (pathStep v p) p = v := by
  cases p <;> simp [pathStep, pathStepInv]

theorem applyPath_cons (p : Bool) (l : List Bool) (v : ℤ × ℤ) :
    applyPath (p :: l) v = applyPath l (pathStep v p) := rfl

theorem applyPathReverse_cons (p : Bool) (l : List Bool) (v : ℤ × ℤ) :
    applyPathReverse (p :: l) v = pathStepInv (applyPathReverse l v) p := by
  simp [applyPathReverse, List.foldl_append]

theorem applyPath_append_single (l : List Bool) (p : Bool) (v : ℤ × ℤ) :
    applyPath (l ++ [p]) v = pathStep (applyPath l v) p := by
  simp [applyPath, List.foldl_append]

/-- Lattice determinant of two integer vectors. -/
def idet (u w : ℤ × ℤ) : ℤ := u.1 * w.2 - u.2 * w.1

theorem idet_pathStep (p : Bool) (u w : ℤ × ℤ) :
    idet (pathStep u p) (pathStep w p) = idet u w := by
  cases p <;> simp [pathStep, idet] <;> ring

/-- Each path step is unimodular, so `applyPath` preserves lattice
determinants. -/
theorem idet_applyPath (l : List Bool) (u w : ℤ × ℤ) :
    idet (applyPath l u) (applyPath l w) = idet u w := by
  induction l generalizing u w with
  | nil => rfl
  | cons p l ih =>
      rw [applyPath_cons, applyPath_cons, ih, idet_pathStep]

/-- Unfolding the Euclidean subtraction path reconstructs its input from
`(1,1)`: `applyPath (calcPath a b) (1,1) = (a,b)` for coprime positive
`a, b`. -/
theorem applyPathAux_calcPath_one_one (fuel a b : ℕ) (ha : 1 ≤ a) (hb : 1 ≤ b)
    (hg : Nat.gcd a b = 1) (hfuel : a + b ≤ fuel + 1) :
    applyPath (calcPathAux fuel a b) (1, 1) = ((a : ℤ), (b : ℤ)) := by
  induction fuel generalizing a b with
  | zero =>
      -- a + b ≤ 1 contradicts 1 ≤ a, 1 ≤ b
      omega
  | succ fuel ih =>
      rw [calcPathAux]
      by_cases h : 1 < a ∨ 1 < b
      · rw [if_pos h]
        by_cases hba : b < a
        · rw [if_pos hba, applyPath_append_single]
          have hg' : Nat.gcd (a - b) b = 1 := by
            rw [Nat.gcd_sub_self_left (le_of_lt hba)]; exact hg
          rw [ih (a - b) b (by omega) hb hg' (by omega)]
          simp only [pathStep, Bool.false_eq_true, if_false, Prod.mk.injEq]
          refine ⟨by omega, trivial⟩
        · rw [if_neg hba, applyPath_append_single]
          -- here a ≤ b; if a = b then coprimality forces a = b = 1,
          -- contradicting the loop guard, so a < b
          have hab : a < b := by
            rcases Nat.lt_or_ge a b with h' | h'
            · exact h'
            · exfalso
              have : a = b := le_antisymm (le_of_not_lt hba) h'
              subst this
              simp [Nat.gcd_self] at hg
              omega
          have hg' : Nat.gcd a (b - a) = 1 := by
            rw [Nat.gcd_sub_self_right (le_of_lt hab)]; exact hg
          rw [ih a (b - a) ha (by omega) hg' (by omega)]
          simp only [pathStep, if_true, Prod.mk.injEq]
          refine ⟨trivial, by omega⟩
      · rw [if_neg h]
        have : a = 1 ∧ b = 1 := by omega
        simp [this.1, this.2, applyPath]

theorem applyPath_calcPath_one_one (a b : ℕ) (ha : 1 ≤ a) (hb : 1 ≤ b)
    (hg : Nat.gcd a b = 1) :
    applyPath (calcPath a b) (1, 1) = ((a : ℤ), (b : ℤ)) :=
  applyPathAux_calcPath_one_one (a + b) a b ha hb hg (by omega)

/-- The generator vector and the reduced step-count vector are a unimodular
pair: `v_gen.x * b0 - v_gen.y * a0 = 1`. -/
theorem idet_v_gen (a b : ℕ) (ha : 1 ≤ a) (hb : 1 ≤ b)
    (hg : Nat.gcd a b = 1) :
    idet (applyPath (calcPath a b) (1, 0)) ((a : ℤ), (b : ℤ)) = 1 := by
  rw [← applyPath_calcPath_one_one a b ha hb hg, idet_applyPath]
  rfl

/-! ### gcd (`mos.cpp`: the recursive `gcd(a, b) = b == 0 ? a : gcd(b, a % b)`) -/

/-- The source's recursive `gcd`, with fuel (the second argument strictly
decreases, so `b + 1` units of fuel always suffice). -/
def gcdAux : ℕ → ℕ → ℕ → ℕ
  | 0, a, _ => a
  | fuel + 1, a, b => if b = 0 then a else gcdAux fuel b (a % b)

/-- Embedding of `gcd(a, b)` from `mos.cpp`. -/
def gcdSrc (a b : ℕ) : ℕ := gcdAux (b + 1) a b

theorem gcdAux_eq (fuel : ℕ) : ∀ a b : ℕ, b < fuel → gcdAux fuel a b = Nat.gcd a b := by
  induction fuel with
  | zero => intro a b h; omega
  | succ fuel ih =>
      intro a b h
      rw [gcdAux]
      by_cases hb : b = 0
      · rw [if_pos hb, hb, Nat.gcd_zero_right]
      · rw [if_neg hb, ih b (a % b) (by have := Nat.mod_lt a (Nat.pos_of_ne_zero hb); omega)]
        rw [Nat.gcd_comm b (a % b), ← Nat.gcd_rec b a, Nat.gcd_comm b a]

theorem gcdSrc_eq (a b : ℕ) : gcdSrc a b = Nat.gcd a b :=
  gcdAux_eq (b + 1) a b (Nat.lt_succ_self b)

/-! ### `affineFromThreeDots` (`params.cpp`, lines 8-32) -/

namespace LinearSolver6x6

/-- Modelled from the spec: `LinearSolver6x6::solve` (`linear_solver.hpp`
is not among the available sources) returns the unique solution of the
n-by-n system (spec §4.1), failing with a singular-system error when no
solution is determined.  The Gaussian elimination with partial pivoting is
replaced by the unique solution it computes — here Cramer's rule — and the
`≈1e-15` pivot epsilon becomes an exact zero test of the determinant. -/
def solve (M : Matrix (Fin 6) (Fin 6) ℚ) (rhs : Fin 6 → ℚ) :
    Option (Fin 6 → ℚ) :=
  if M.det = 0 then none
  else some (fun i => M.det⁻¹ * Matrix.cramer M rhs i)

/-- The solver returns exactly the vector that satisfies the system. -/
theorem solve_eq_of_mulVec (M : Matrix (Fin 6) (Fin 6) ℚ) (rhs x : Fin 6 → ℚ)
    (hdet : M.det ≠ 0) (hx : M.mulVec x = rhs) : solve M rhs = some x := by
  unfold solve
  rw [if_neg hdet]
  congr 1
  have h2 : M.mulVec (fun i => M.det⁻¹ * Matrix.cramer M rhs i) = rhs := by
    have he : (fun i => M.det⁻¹ * Matrix.cramer M rhs i)
        = M.det⁻¹ • (Matrix.cramer M rhs : Fin 6 → ℚ) := rfl
    rw [he, Matrix.mulVec_smul, Matrix.mulVec_cramer, smul_smul,
      inv_mul_cancel₀ hdet, one_smul]
  have hinj : Function.Injective M.mulVec :=
    Matrix.mulVec_injective_iff_isUnit.mpr
      ((Matrix.isUnit_iff_isUnit_det M).mpr (isUnit_iff_ne_zero.mpr hdet))
  exact hinj (by rw [h2, hx])

end LinearSolver6x6

/-- Embedding of `affineFromThreeDots(a1, a2, a3, b1, b2, b3)` from
`params.cpp`: set up the 6x6 matrix row by row as in the source, the
right-hand side `(b1.x, b1.y, b2.x, b2.y, b3.x, b3.y)`, solve, and extract
`AffineTransform(sol[0], sol[1], sol[3], sol[4], sol[2], sol[5])`; a solver
failure (collinear source points) propagates. -/
def affineFromThreeDots (a1 a2 a3 b1 b2 b3 : ℚ × ℚ) : Option AffineTransform :=
  let M : Matrix (Fin 6) (Fin 6) ℚ :=
    !![a1.1, a1.2, 1, 0, 0, 0;
       0, 0, 0, a1.1, a1.2, 1;
       a2.1, a2.2, 1, 0, 0, 0;
       0, 0, 0, a2.1, a2.2, 1;
       a3.1, a3.2, 1, 0, 0, 0;
       0, 0, 0, a3.1, a3.2, 1]
  let rhs : Fin 6 → ℚ := ![b1.1, b1.2, b2.1, b2.2, b3.1, b3.2]
  (LinearSolver6x6.solve M rhs).map
    (fun sol => ⟨sol 0, sol 1, sol 3, sol 4, sol 2, sol 5⟩)

/-! ### MOS (`mos.hpp` / `mos.cpp`) -/

/-- The `MOS` class fields (spec §3).  `base_scale` is not a field here:
its generation needs `findClosestWithinStrip`, which is not among the
available sources, so the one-period reference scale is the separate
`baseScaleNodes` below, parameterised over the step pair.  The
`mosTransform` field (`IntegerAffineTransform::linearFromTwoDots`, also in
the missing transform source) is used by no claim and is omitted. -/
structure MOS where
  a : ℤ
  b : ℤ
  n : ℤ
  a0 : ℤ
  b0 : ℤ
  n0 : ℤ
  mode : ℤ
  nL : ℤ
  nS : ℤ
  repetitions : ℤ
  depth : ℤ
  equave : ℚ
  period : ℚ
  generator : ℚ
  L_vec : ℤ × ℤ
  s_vec : ℤ × ℤ
  chroma_vec : ℤ × ℤ
  L_fr : ℚ
  s_fr : ℚ
  chroma_fr : ℚ
  path : List Bool
  impliedAffine : AffineTransform
  v_gen : ℤ × ℤ
deriving DecidableEq, Repr

/-- Embedding of `MOS::updateVectors()`: decide which lattice basis vector
has the larger
x-image under the implied transform and assign `L_vec`/`s_vec` and the
derived step data accordingly. -/
def updateVectors (M : MOS) : MOS :=
  if (M.impliedAffine.applyI (0, 1)).1 < (M.impliedAffine.applyI (1, 0)).1 then
    { M with L_vec := (1, 0), s_vec := (0, 1),
             L_fr := (M.impliedAffine.applyI (1, 0)).1,
             s_fr := (M.impliedAffine.applyI (0, 1)).1,
             nL := M.a, nS := M.b,
             chroma_vec := ((1, 0) : ℤ × ℤ) - (0, 1),
             chroma_fr := (M.impliedAffine.applyI (1, 0)).1 -
               (M.impliedAffine.applyI (0, 1)).1 }
  else
    { M with L_vec := (0, 1), s_vec := (1, 0),
             L_fr := (M.impliedAffine.applyI (0, 1)).1,
             s_fr := (M.impliedAffine.applyI (1, 0)).1,
             nL := M.b, nS := M.a,
             chroma_vec := ((0, 1) : ℤ × ℤ) - (1, 0),
             chroma_fr := (M.impliedAffine.applyI (0, 1)).1 -
               (M.impliedAffine.applyI (1, 0)).1 }

/-- Embedding of `MOS::calcImpliedAffine()`: three-point fit sending
`(0,0), v_gen, (a0,b0)` to `(0, q(2m+1)), (g·period, q(2m+3)),
(period, q(2m+1))` with `q = 0.5/n0`. -/
def calcImpliedAffine (a0 b0 : ℤ) (vg : ℤ × ℤ) (m : ℤ) (period g : ℚ) :
    Option AffineTransform :=
  let q : ℚ := (1 / 2) / ((a0 : ℚ) + (b0 : ℚ))
  affineFromThreeDots
    (0, 0) (((vg.1 : ℚ)), ((vg.2 : ℚ))) (((a0 : ℚ)), ((b0 : ℚ)))
    (0, q * (2 * (m : ℚ) + 1)) (g * period, q * (2 * (m : ℚ) + 3))
    (period, q * (2 * (m : ℚ) + 1))

/-- The interleaving of x-rows and y-rows in the `affineFromThreeDots`
system, as a permutation of the block-diagonal ordering. -/
def rowPerm : Equiv.Perm (Fin 6) :=
  ⟨![0, 3, 1, 4, 2, 5], ![0, 2, 4, 1, 3, 5], by decide, by decide⟩

/-- Determinant of the `affineFromThreeDots` system matrix when the first
source point is the origin: the system decouples into two identical 3x3
blocks, so the determinant is (up to the sign of the row interleaving) the
square of the source-triangle determinant. -/
theorem det_implied (x2 y2 x3 y3 : ℚ) :
    (!![0, 0, 1, 0, 0, 0;
        0, 0, 0, 0, 0, 1;
        x2, y2, 1, 0, 0, 0;
        0, 0, 0, x2, y2, 1;
        x3, y3, 1, 0, 0, 0;
        0, 0, 0, x3, y3, 1] : Matrix (Fin 6) (Fin 6) ℚ).det
      = -((x2 * y3 - y2 * x3) ^ 2) := by
  have hM : (!![0, 0, 1, 0, 0, 0;
        0, 0, 0, 0, 0, 1;
        x2, y2, 1, 0, 0, 0;
        0, 0, 0, x2, y2, 1;
        x3, y3, 1, 0, 0, 0;
        0, 0, 0, x3, y3, 1] : Matrix (Fin 6) (Fin 6) ℚ)
      = ((Matrix.fromBlocks (!![0, 0, 1; x2, y2, 1; x3, y3, 1]) 0 0
            (!![0, 0, 1; x2, y2, 1; x3, y3, 1])).submatrix
          finSumFinEquiv.symm finSumFinEquiv.symm).submatrix rowPerm id := by
    ext i j
    fin_cases i <;> fin_cases j <;> rfl
  rw [hM, Matrix.det_permute, Matrix.det_submatrix_equiv_self,
    Matrix.det_fromBlocks_zero₂₁, Matrix.det_fin_three]
  rw [show Equiv.Perm.sign rowPerm = -1 from by decide]
  norm_num [Matrix.cons_val_zero, Matrix.cons_val_one, Matrix.head_cons]
  ring

theorem vecCons_eq_iff {k : ℕ} (x y : ℚ) (u v : Fin k → ℚ) :
    Matrix.vecCons x u = Matrix.vecCons y v ↔ x = y ∧ u = v :=
  Fin.cons_eq_cons

set_option maxHeartbeats 1000000 in
/-- The implied-affine fit in closed form: when
`v_gen.x * b0 - v_gen.y * a0 = 1` the system is non-singular and the fitted
transform is the explicit solution below (verified row by row against the
6x6 system). -/
theorem calcImpliedAffine_eq (a0 b0 : ℤ) (vg : ℤ × ℤ) (m : ℤ) (period g : ℚ)
    (hdet : vg.1 * b0 - vg.2 * a0 = 1) :
    calcImpliedAffine a0 b0 vg m period g = some
      ⟨g * period * (b0 : ℚ) - period * (vg.2 : ℚ),
       (vg.1 : ℚ) * period - (a0 : ℚ) * (g * period),
       2 * ((1 / 2) / ((a0 : ℚ) + (b0 : ℚ))) * (b0 : ℚ),
       -(2 * ((1 / 2) / ((a0 : ℚ) + (b0 : ℚ))) * (a0 : ℚ)),
       0,
       ((1 / 2) / ((a0 : ℚ) + (b0 : ℚ))) * (2 * (m : ℚ) + 1)⟩ := by
  have hq : (vg.1 : ℚ) * (b0 : ℚ) - (vg.2 : ℚ) * (a0 : ℚ) = 1 := by
    have h1 : ((vg.1 * b0 - vg.2 * a0 : ℤ) : ℚ) = ((1 : ℤ) : ℚ) := by rw [hdet]
    push_cast at h1
    linarith
  have hsolve : LinearSolver6x6.solve
      (!![(0 : ℚ), 0, 1, 0, 0, 0;
          0, 0, 0, 0, 0, 1;
          (vg.1 : ℚ), (vg.2 : ℚ), 1, 0, 0, 0;
          0, 0, 0, (vg.1 : ℚ), (vg.2 : ℚ), 1;
          (a0 : ℚ), (b0 : ℚ), 1, 0, 0, 0;
          0, 0, 0, (a0 : ℚ), (b0 : ℚ), 1])
      (![0, ((1 / 2) / ((a0 : ℚ) + (b0 : ℚ))) * (2 * (m : ℚ) + 1),
         g * period, ((1 / 2) / ((a0 : ℚ) + (b0 : ℚ))) * (2 * (m : ℚ) + 3),
         period, ((1 / 2) / ((a0 : ℚ) + (b0 : ℚ))) * (2 * (m : ℚ) + 1)])
      = some
      ![g * period * (b0 : ℚ) - period * (vg.2 : ℚ),
        (vg.1 : ℚ) * period - (a0 : ℚ) * (g * period),
        0,
        2 * ((1 / 2) / ((a0 : ℚ) + (b0 : ℚ))) * (b0 : ℚ),
        -(2 * ((1 / 2) / ((a0 : ℚ) + (b0 : ℚ))) * (a0 : ℚ)),
        ((1 / 2) / ((a0 : ℚ) + (b0 : ℚ))) * (2 * (m : ℚ) + 1)] := by
    apply LinearSolver6x6.solve_eq_of_mulVec
    · rw [det_implied, hq]
      norm_num
    · simp only [Matrix.cons_mulVec, Matrix.cons_dotProduct_cons,
        Matrix.dotProduct_empty, Matrix.empty_mulVec, vecCons_eq_iff]
      refine ⟨by ring, by ring, by linear_combination (g * period) * hq,
        by linear_combination ((a0 : ℚ) + (b0 : ℚ))⁻¹ * hq,
        by linear_combination period * hq, by ring, trivial⟩
  simp only [calcImpliedAffine, affineFromThreeDots]
  rw [hsolve]
  rfl

/-- The body of `MOS::adjustParams` (everything after the asserts): all
derived fields of the MOS, computed from `(a, b, mode, equave, generator)`.
For every input passing the asserts the implied-affine fit succeeds (its
source determinant is the unimodular `idet v_gen (a0,b0) = 1`), so the
`Option.getD` fallback to the identity is unreachable there. -/
def mosOf (a b m : ℤ) (e g : ℚ) : MOS :=
  let an := a.toNat
  let bn := b.toNat
  let r := gcdSrc an bn
  let a0 := an / r
  let b0 := bn / r
  let path := calcPath a0 b0
  let vg := applyPath path (1, 0)
  let period := e / (r : ℚ)
  let T := (calcImpliedAffine (a0 : ℤ) (b0 : ℤ) vg m period g).getD
    AffineTransform.ident
  updateVectors
    { a := a, b := b, n := a + b,
      a0 := (a0 : ℤ), b0 := (b0 : ℤ), n0 := (a0 : ℤ) + (b0 : ℤ),
      mode := m, nL := 0, nS := 0,
      repetitions := (r : ℤ), depth := (path.length : ℤ),
      equave := e, period := period, generator := g,
      L_vec := (0, 0), s_vec := (0, 0), chroma_vec := (0, 0),
      L_fr := 0, s_fr := 0, chroma_fr := 0,
      path := path, impliedAffine := T, v_gen := vg }

/-- Embedding of `MOS::adjustParams`: the three `assert`s guarding the
body.  A failed
assert aborts before any field is written, which the embedding renders as an
`invalid-parameter` error with no new state. -/
def adjustParams (a b m : ℤ) (e g : ℚ) : Except String MOS :=
  if 0 < a ∧ 0 < b ∧ 0 ≤ g ∧ g ≤ 1 then .ok (mosOf a b m e g)
  else .error "invalid-parameter"

/-- Embedding of `MOS::nodeInScale(v)`: `d = v.x*b - v.y*a + mode`, in
scale iff
`0 ≤ d < n`. -/
def nodeInScale (M : MOS) (v : ℤ × ℤ) : Bool :=
  let d := v.1 * M.b - v.2 * M.a + M.mode
  if d < 0 ∨ M.n ≤ d then false else true

/-- Embedding of `MOS::nodeEquaveNr(v) = (v.x + v.y + 256*n) / n - 256`
with C++
truncated division. -/
def nodeEquaveNr (M : MOS) (v : ℤ × ℤ) : ℤ :=
  Int.tdiv (v.1 + v.2 + 256 * M.n) M.n - 256

/-- Embedding of `MOS::nodeScaleDegree(v) = (v.x + v.y + 256*n) % n` with
C++ truncated
remainder. -/
def nodeScaleDegree (M : MOS) (v : ℤ × ℤ) : ℤ :=
  Int.tmod (v.1 + v.2 + 256 * M.n) M.n

/-! ### Scale generation (`scale.cpp`: `Scale::recalcWithAffine`),
parameterised over the step pair `(r, s)` that the missing
`findClosestWithinStrip` would return -/

/-- The root node of `Scale::recalcWithAffine`:
`natural_coord = (0,0)`, `tuning_coord = A(0,0)` (its pitch, `base_freq`,
is in `recalcPitch`). -/
def rootNode (A : AffineTransform) : Node :=
  { natural := (0, 0), tuning := A.applyI (0, 0) }

/-- One forward iteration of the generation loop: try step `r`, else `s`,
else the fallback `r + s`, judged by whether the candidate keeps the
y-coordinate in the strip; then recompute `tuning_coord` under the full
transform `A`. -/
def stripStep (A : AffineTransform) (r s : ℤ × ℤ) (last : Node) : Node :=
  let zr := A.lin.applyI r
  let zs := A.lin.applyI s
  let nc :=
    if 0 ≤ last.tuning.2 + zr.2 ∧ last.tuning.2 + zr.2 < 1 then last.natural + r
    else if 0 ≤ last.tuning.2 + zs.2 ∧ last.tuning.2 + zs.2 < 1 then
      last.natural + s
    else last.natural + (r + s)
  { natural := nc, tuning := A.applyI nc }

/-- One backward iteration: the symmetric loop subtracting `r`, `s` or
`r + s`. -/
def stripStepBack (A : AffineTransform) (r s : ℤ × ℤ) (last : Node) : Node :=
  let zr := A.lin.applyI r
  let zs := A.lin.applyI s
  let nc :=
    if 0 ≤ last.tuning.2 - zr.2 ∧ last.tuning.2 - zr.2 < 1 then last.natural - r
    else if 0 ≤ last.tuning.2 - zs.2 ∧ last.tuning.2 - zs.2 < 1 then
      last.natural - s
    else last.natural - (r + s)
  { natural := nc, tuning := A.applyI nc }

/-- The node `k` positions after the root in the forward pass. -/
def fwdNode (A : AffineTransform) (r s : ℤ × ℤ) : ℕ → Node
  | 0 => rootNode A
  | k + 1 => stripStep A r s (fwdNode A r s k)

/-- The node `k` positions before the root in the backward pass. -/
def bwdNode (A : AffineTransform) (r s : ℤ × ℤ) : ℕ → Node
  | 0 => rootNode A
  | k + 1 => stripStepBack A r s (bwdNode A r s k)

/-- The node stored at index `i` by `Scale::recalcWithAffine` with root
index `root_idx`. -/
def recalcNode (A : AffineTransform) (r s : ℤ × ℤ) (root_idx i : ℕ) : Node :=
  if root_idx ≤ i then fwdNode A r s (i - root_idx)
  else bwdNode A r s (root_idx - i)

/-- The node list of `Scale::fromAffine(A, base_freq, N, root_idx)`
(parameterised over the step pair). -/
def scaleNodes (A : AffineTransform) (r s : ℤ × ℤ) (N root_idx : ℕ) :
    List Node :=
  (List.range N).map (recalcNode A r s root_idx)

/-- The `pitch` field written by `Scale::recalcWithAffine`: `base_freq` at
the root index, `base_freq * exp2(tuning_coord.x)` elsewhere. -/
noncomputable def recalcPitch (base_freq : ℝ) (A : AffineTransform)
    (r s : ℤ × ℤ) (root_idx i : ℕ) : ℝ :=
  if i = root_idx then base_freq
  else base_freq * (2 : ℝ) ^ (((recalcNode A r s root_idx i).tuning.1 : ℝ))

/-- Embedding of `Scale::retuneWithAffine(A)`: recompute every node's
`tuning_coord`
from its existing `natural_coord` under the new transform (pitch, also
recomputed there, is `base_freq * exp2(tuning_coord.x)` for every node). -/
def retuneWithAffine (A : AffineTransform) (nodes : List Node) : List Node :=
  nodes.map (fun nd => { natural := nd.natural, tuning := A.applyI nd.natural })

/-- Modelled from the spec (§4.3): the contract of the missing
`findClosestWithinStrip(M)`.  Among the images of lattice vectors under the
(translation-stripped) linear map `M`, `r` realises the smallest positive
y-coordinate and `s` the smallest-magnitude negative y-coordinate, subject
to the property that from any point of the strip exactly one of the two
steps stays in the strip — stated here for the forward and the backward
traversal.  (The spec's additional norm-minimality tie-breaking is not
needed by any claim and is left out.) -/
def specStepPair (M : AffineTransform) (r s : ℤ × ℤ) : Prop :=
  0 < (M.applyI r).2 ∧
  (∀ w : ℤ × ℤ, 0 < (M.applyI w).2 → (M.applyI r).2 ≤ (M.applyI w).2) ∧
  (M.applyI s).2 < 0 ∧
  (∀ w : ℤ × ℤ, (M.applyI w).2 < 0 → (M.applyI w).2 ≤ (M.applyI s).2) ∧
  (∀ t : ℚ, inStrip t →
    inStrip (t + (M.applyI r).2) ∨ inStrip (t + (M.applyI s).2)) ∧
  (∀ t : ℚ, inStrip t →
    inStrip (t - (M.applyI r).2) ∨ inStrip (t - (M.applyI s).2))

/-- The one-period reference scale of a MOS
(`Scale::fromAffine(impliedAffine, 1.0, n+1, 0)` in `MOS::adjustParams`),
parameterised over the step pair. -/
def baseScaleNodes (M : MOS) (r s : ℤ × ℤ) : List Node :=
  scaleNodes M.impliedAffine r s (M.n + 1).toNat 0

/-! ### Retuning (`mos.cpp`) -/

/-- Embedding of `MOS::_recalcOnRetuneUsingAffine(A)` on the MOS fields:
install `A` as
the implied transform and recompute `equave`, `period`, `generator` and the
step vectors from it.  (The `base_scale.retuneWithAffine(A)` call acts on
the scale nodes, embedded by `retuneWithAffine` above.) -/
def recalcOnRetune (M : MOS) (A : AffineTransform) : MOS :=
  let e := (A.applyI (M.a, M.b)).1 - (A.applyI (0, 0)).1
  let p := (A.applyI (M.a0, M.b0)).1 - (A.applyI (0, 0)).1
  let g := ((A.applyI M.v_gen).1 - (A.applyI (0, 0)).1) / p
  updateVectors { M with impliedAffine := A, equave := e, period := p, generator := g }

/-- Embedding of `MOS::retuneOnePoint(v, log2fr)`: shift `tx` so the image
of `v` matches
`log2fr`. -/
def retuneOnePoint (M : MOS) (v : ℤ × ℤ) (log2fr : ℚ) : MOS :=
  let shift := log2fr - (M.impliedAffine.applyI v).1
  recalcOnRetune M { M.impliedAffine with tx := M.impliedAffine.tx + shift }

/-- The divisor of the `scale` computation in `MOS::retuneTwoPoints`:
`(A * v).x - fixed_log2fr`. -/
def retuneTwoPointsDenom (M : MOS) (fixed v : ℤ × ℤ) : ℚ :=
  (M.impliedAffine.applyI v).1 - (M.impliedAffine.applyI fixed).1

/-- The x-scaling factor computed by `MOS::retuneTwoPoints`:
`(log2fr - fixed_log2fr) / ((A * v).x - fixed_log2fr)`. -/
def retuneScaleFactor (M : MOS) (fixed v : ℤ × ℤ) (log2fr : ℚ) : ℚ :=
  (log2fr - (M.impliedAffine.applyI fixed).1) / retuneTwoPointsDenom M fixed v

/-- Embedding of `MOS::retuneTwoPoints(fixed, v, log2fr)`: compose with a
pure x-scaling
`B` (default transform with `B.a = scale`), then re-translate. -/
def retuneTwoPoints (M : MOS) (fixed v : ℤ × ℤ) (log2fr : ℚ) : MOS :=
  let A := M.impliedAffine
  let fixedLog := (A.applyI fixed).1
  let B := { AffineTransform.ident with a := retuneScaleFactor M fixed v log2fr }
  let A1 := B.comp A
  let shift := fixedLog - (A1.applyI fixed).1
  recalcOnRetune M { A1 with tx := shift }

/-- Embedding of `MOS::coordToFreq`:
`base_freq * exp2((A * (x,y)).x)`. -/
noncomputable def coordToFreq (M : MOS) (x y : ℚ) (base_freq : ℝ) : ℝ :=
  base_freq * (2 : ℝ) ^ (((M.impliedAffine.apply (x, y)).1 : ℝ))

/-! ### Field bookkeeping for `updateVectors` and `mosOf` -/

theorem updateVectors_a (M : MOS) : (updateVectors M).a = M.a := by
  unfold updateVectors; split <;> rfl

theorem updateVectors_b (M : MOS) : (updateVectors M).b = M.b := by
  unfold updateVectors; split <;> rfl

theorem updateVectors_n (M : MOS) : (updateVectors M).n = M.n := by
  unfold updateVectors; split <;> rfl

theorem updateVectors_a0 (M : MOS) : (updateVectors M).a0 = M.a0 := by
  unfold updateVectors; split <;> rfl

theorem updateVectors_b0 (M : MOS) : (updateVectors M).b0 = M.b0 := by
  unfold updateVectors; split <;> rfl

theorem updateVectors_n0 (M : MOS) : (updateVectors M).n0 = M.n0 := by
  unfold updateVectors; split <;> rfl

theorem updateVectors_mode (M : MOS) : (updateVectors M).mode = M.mode := by
  unfold updateVectors; split <;> rfl

theorem updateVectors_repetitions (M : MOS) :
    (updateVectors M).repetitions = M.repetitions := by
  unfold updateVectors; split <;> rfl

theorem updateVectors_depth (M : MOS) : (updateVectors M).depth = M.depth := by
  unfold updateVectors; split <;> rfl

theorem updateVectors_equave (M : MOS) : (updateVectors M).equave = M.equave := by
  unfold updateVectors; split <;> rfl

theorem updateVectors_period (M : MOS) : (updateVectors M).period = M.period := by
  unfold updateVectors; split <;> rfl

theorem updateVectors_generator (M : MOS) :
    (updateVectors M).generator = M.generator := by
  unfold updateVectors; split <;> rfl

theorem updateVectors_path (M : MOS) : (updateVectors M).path = M.path := by
  unfold updateVectors; split <;> rfl

theorem updateVectors_impliedAffine (M : MOS) :
    (updateVectors M).impliedAffine = M.impliedAffine := by
  unfold updateVectors; split <;> rfl

theorem updateVectors_v_gen (M : MOS) : (updateVectors M).v_gen = M.v_gen := by
  unfold updateVectors; split <;> rfl

theorem mosOf_a (a b m : ℤ) (e g : ℚ) : (mosOf a b m e g).a = a := by
  simp only [mosOf, updateVectors_a]

theorem mosOf_b (a b m : ℤ) (e g : ℚ) : (mosOf a b m e g).b = b := by
  simp only [mosOf, updateVectors_b]

theorem mosOf_n (a b m : ℤ) (e g : ℚ) : (mosOf a b m e g).n = a + b := by
  simp only [mosOf, updateVectors_n]

theorem mosOf_mode (a b m : ℤ) (e g : ℚ) : (mosOf a b m e g).mode = m := by
  simp only [mosOf, updateVectors_mode]

theorem mosOf_repetitions (a b m : ℤ) (e g : ℚ) :
    (mosOf a b m e g).repetitions = ((gcdSrc a.toNat b.toNat : ℕ) : ℤ) := by
  simp only [mosOf, updateVectors_repetitions]

theorem mosOf_a0 (a b m : ℤ) (e g : ℚ) :
    (mosOf a b m e g).a0 = ((a.toNat / gcdSrc a.toNat b.toNat : ℕ) : ℤ) := by
  simp only [mosOf, updateVectors_a0]

theorem mosOf_b0 (a b m : ℤ) (e g : ℚ) :
    (mosOf a b m e g).b0 = ((b.toNat / gcdSrc a.toNat b.toNat : ℕ) : ℤ) := by
  simp only [mosOf, updateVectors_b0]

theorem mosOf_n0 (a b m : ℤ) (e g : ℚ) :
    (mosOf a b m e g).n0 =
      ((a.toNat / gcdSrc a.toNat b.toNat : ℕ) : ℤ) +
      ((b.toNat / gcdSrc a.toNat b.toNat : ℕ) : ℤ) := by
  simp only [mosOf, updateVectors_n0]

theorem mosOf_path (a b m : ℤ) (e g : ℚ) :
    (mosOf a b m e g).path =
      calcPath (a.toNat / gcdSrc a.toNat b.toNat)
        (b.toNat / gcdSrc a.toNat b.toNat) := by
  simp only [mosOf, updateVectors_path]

theorem mosOf_v_gen (a b m : ℤ) (e g : ℚ) :
    (mosOf a b m e g).v_gen =
      applyPath (calcPath (a.toNat / gcdSrc a.toNat b.toNat)
        (b.toNat / gcdSrc a.toNat b.toNat)) (1, 0) := by
  simp only [mosOf, updateVectors_v_gen]

theorem mosOf_impliedAffine (a b m : ℤ) (e g : ℚ) :
    (mosOf a b m e g).impliedAffine =
      (calcImpliedAffine ((a.toNat / gcdSrc a.toNat b.toNat : ℕ) : ℤ)
        ((b.toNat / gcdSrc a.toNat b.toNat : ℕ) : ℤ)
        (applyPath (calcPath (a.toNat / gcdSrc a.toNat b.toNat)
          (b.toNat / gcdSrc a.toNat b.toNat)) (1, 0))
        m (e / ((gcdSrc a.toNat b.toNat : ℕ) : ℚ)) g).getD
        AffineTransform.ident := by
  simp only [mosOf, updateVectors_impliedAffine]

/-! ### C5: path-fold round trip -/

/-- C5: for every boolean path and every integer lattice vector `v`,
`applyPathReverse(path, applyPath(path, v)) = v`. -/
theorem applyPathReverse_applyPath (path : List Bool) (v : ℤ × ℤ) :
    applyPathReverse path (applyPath path v) = v := by
  induction path generalizing v with
  | nil => rfl
  | cons p l ih =>
      rw [applyPath_cons, applyPathReverse_cons, ih, pathStepInv_pathStep]

/-! ### C10: periodicity of the membership test -/

/-- C10: scale membership is invariant under translation by the full-period
vector `(a, b)`, because `v.x*b - v.y*a + mode` is unchanged by it. -/
theorem nodeInScale_period (M : MOS) (v : ℤ × ℤ) :
    nodeInScale M (v + (M.a, M.b)) = nodeInScale M v := by
  unfold nodeInScale
  have h : (v + (M.a, M.b)).1 * M.b - (v + (M.a, M.b)).2 * M.a + M.mode
      = v.1 * M.b - v.2 * M.a + M.mode := by
    simp only [Prod.fst_add, Prod.snd_add]
    ring
  rw [h]

/-! ### C7: invalid parameters are rejected -/

/-- C7: `adjustParams` fails with the invalid-parameter error whenever
`a ≤ 0`, `b ≤ 0` or the generator lies outside `[0, 1]`; no clamped state is
produced. -/
theorem adjustParams_invalid (a b m : ℤ) (e g : ℚ)
    (h : a ≤ 0 ∨ b ≤ 0 ∨ g < 0 ∨ 1 < g) :
    adjustParams a b m e g = Except.error "invalid-parameter" := by
  unfold adjustParams
  rw [if_neg]
  rintro ⟨h1, h2, h3, h4⟩
  rcases h with h' | h' | h' | h'
  · omega
  · omega
  · exact absurd h3 (not_le.mpr h')
  · exact absurd h4 (not_le.mpr h')

/-- Witness for C7 at the concrete input `a = 0`. -/
theorem adjustParams_invalid_witness :
    adjustParams 0 1 0 1 0 = Except.error "invalid-parameter" :=
  adjustParams_invalid 0 1 0 1 0 (Or.inl le_rfl)

/-! ### C4: gcd invariants of `adjustParams` -/

/-- C4: for every valid input, `adjustParams` derives
`repetitions = gcd(a,b)`, `a0 + b0 = n0`, `gcd(a0,b0) = 1` and
`repetitions * n0 = n = a + b`; and the concrete scenario
`MOS(5, 2, 1, 1.0, 0.585)` yields `n = 7`, `a0 = 5`, `b0 = 2`, `n0 = 7`,
`repetitions = 1`. -/
theorem adjustParams_gcd_invariants :
    (∀ (a b m : ℤ) (e g : ℚ), 0 < a → 0 < b → 0 ≤ g → g ≤ 1 →
      adjustParams a b m e g = Except.ok (mosOf a b m e g) ∧
      (mosOf a b m e g).repetitions = (Int.gcd a b : ℤ) ∧
      (mosOf a b m e g).a0 + (mosOf a b m e g).b0 = (mosOf a b m e g).n0 ∧
      Int.gcd (mosOf a b m e g).a0 (mosOf a b m e g).b0 = 1 ∧
      (mosOf a b m e g).repetitions * (mosOf a b m e g).n0 =
        (mosOf a b m e g).n ∧
      (mosOf a b m e g).n = a + b) ∧
    ((mosOf 5 2 1 1 (117 / 200)).n = 7 ∧ (mosOf 5 2 1 1 (117 / 200)).a0 = 5 ∧
      (mosOf 5 2 1 1 (117 / 200)).b0 = 2 ∧ (mosOf 5 2 1 1 (117 / 200)).n0 = 7 ∧
      (mosOf 5 2 1 1 (117 / 200)).repetitions = 1) := by
  constructor
  · intro a b m e g ha hb hg0 hg1
    have htn : a.toNat = a.natAbs ∧ b.toNat = b.natAbs := by omega
    have hga : Nat.gcd a.toNat b.toNat = Int.gcd a b := by
      rw [htn.1, htn.2]; rfl
    have hapos : 0 < a.toNat := by omega
    have hbpos : 0 < b.toNat := by omega
    have hgpos : 0 < Nat.gcd a.toNat b.toNat := Nat.gcd_pos_of_pos_left _ hapos
    refine ⟨?_, ?_, ?_, ?_, ?_, ?_⟩
    · unfold adjustParams
      rw [if_pos ⟨ha, hb, hg0, hg1⟩]
    · rw [mosOf_repetitions, gcdSrc_eq, hga]
    · rw [mosOf_a0, mosOf_b0, mosOf_n0]
    · rw [mosOf_a0, mosOf_b0, Int.gcd_natCast_natCast, gcdSrc_eq]
      exact Nat.coprime_div_gcd_div_gcd hgpos
    · rw [mosOf_repetitions, mosOf_n0, mosOf_n, gcdSrc_eq]
      have hsum : Nat.gcd a.toNat b.toNat *
          (a.toNat / Nat.gcd a.toNat b.toNat + b.toNat / Nat.gcd a.toNat b.toNat)
          = a.toNat + b.toNat := by
        rw [Nat.mul_add, Nat.mul_div_cancel' (Nat.gcd_dvd_left _ _),
          Nat.mul_div_cancel' (Nat.gcd_dvd_right _ _)]
      rw [← Nat.cast_add, ← Nat.cast_mul, hsum]
      omega
    · exact mosOf_n a b m e g
  · refine ⟨mosOf_n 5 2 1 1 (117 / 200), ?_, ?_, ?_, ?_⟩
    · rw [mosOf_a0]; decide
    · rw [mosOf_b0]; decide
    · rw [mosOf_n0]; decide
    · rw [mosOf_repetitions]; decide

/-- Witness for C4 at the concrete input `(5, 2, 1, 1, 0.585)`. -/
theorem adjustParams_gcd_invariants_witness :
    adjustParams 5 2 1 1 (117 / 200) = Except.ok (mosOf 5 2 1 1 (117 / 200)) ∧
    (mosOf 5 2 1 1 (117 / 200)).repetitions = (Int.gcd 5 2 : ℤ) := by
  have h := adjustParams_gcd_invariants.1 5 2 1 1 (117 / 200)
    (by norm_num) (by norm_num) (by norm_num) (by norm_num)
  exact ⟨h.1, h.2.1⟩

/-! ### C6: scale degree and equave number -/

/-- C6 (amended): for every lattice vector whose coordinate sum is at least
`-256*n`, `nodeScaleDegree` returns the non-negative residue of
`v.x + v.y` modulo `n` and `nodeEquaveNr` returns `floor((v.x + v.y)/n)`.
(The source offsets by `256*n` before C++ truncated `/` and `%`, which is
only a floor/residue once the offset numerator is non-negative.) -/
theorem nodeDegree_equave_eq (M : MOS) (v : ℤ × ℤ) (hn : 0 < M.n)
    (hbound : -256 * M.n ≤ v.1 + v.2) :
    nodeScaleDegree M v = (v.1 + v.2) % M.n ∧
    nodeEquaveNr M v = (v.1 + v.2) / M.n := by
  have h0 : 0 ≤ v.1 + v.2 + 256 * M.n := by omega
  constructor
  · unfold nodeScaleDegree
    rw [Int.tmod_eq_emod h0 (le_of_lt hn), Int.add_mul_emod_self]
  · unfold nodeEquaveNr
    rw [Int.tdiv_eq_ediv h0 (le_of_lt hn),
      Int.add_mul_ediv_right _ _ (ne_of_gt hn)]
    omega

/-- Witness for (the amended) C6 at `v = (10, -3)` on the diatonic MOS. -/
theorem nodeDegree_equave_eq_witness :
    nodeScaleDegree (mosOf 5 2 1 1 (117 / 200)) (10, -3) = 0 ∧
    nodeEquaveNr (mosOf 5 2 1 1 (117 / 200)) (10, -3) = 1 := by
  have hn : 0 < (mosOf 5 2 1 1 (117 / 200)).n := by rw [mosOf_n]; decide
  have hb : -256 * (mosOf 5 2 1 1 (117 / 200)).n ≤
      ((10 : ℤ), (-3 : ℤ)).1 + ((10 : ℤ), (-3 : ℤ)).2 := by
    rw [mosOf_n]; decide
  have h := nodeDegree_equave_eq (mosOf 5 2 1 1 (117 / 200)) (10, -3) hn hb
  rw [mosOf_n] at h
  norm_num at h
  exact h

/-- Counterexample to C6 as stated: on the diatonic MOS (`n = 7`), at
`v = (-1793, 0)` the coordinate sum is below `-256*n`, and the truncated
division of the offset sum makes `nodeScaleDegree` return `-1` (not the
non-negative residue `6`) and `nodeEquaveNr` return `-256` (not the floor
`-257`). -/
theorem nodeDegree_equave_counterexample :
    (mosOf 5 2 1 1 (117 / 200)).n = 7 ∧
    nodeScaleDegree (mosOf 5 2 1 1 (117 / 200)) (-1793, 0) = -1 ∧
    ((-1793 : ℤ) + 0) % 7 = 6 ∧
    nodeEquaveNr (mosOf 5 2 1 1 (117 / 200)) (-1793, 0) = -256 ∧
    ((-1793 : ℤ) + 0) / 7 = -257 := by
  refine ⟨mosOf_n 5 2 1 1 (117 / 200), ?_, by decide, ?_, by decide⟩
  · unfold nodeScaleDegree
    rw [mosOf_n]
    decide
  · unfold nodeEquaveNr
    rw [mosOf_n]
    decide

/-! ### C8: `retuneOnePoint` is a pure translation -/

theorem recalcOnRetune_impliedAffine (M : MOS) (A : AffineTransform) :
    (recalcOnRetune M A).impliedAffine = A := by
  simp only [recalcOnRetune, updateVectors_impliedAffine]

/-- C8: after `retuneOnePoint(v, f)` the image of `v` under the implied
transform is exactly `f` (so `coordToFreq(v) = base_freq * 2^f`), the
implied transform changes only in `tx`, and `retuneWithAffine` leaves every
node's `natural_coord` unchanged (recomputing only `tuning_coord` and
pitch). -/
theorem retuneOnePoint_spec (M : MOS) (v : ℤ × ℤ) (f : ℚ) (base : ℝ)
    (nodes : List Node) :
    ((retuneOnePoint M v f).impliedAffine.applyI v).1 = f ∧
    coordToFreq (retuneOnePoint M v f) (v.1 : ℚ) (v.2 : ℚ) base =
      base * (2 : ℝ) ^ ((f : ℝ)) ∧
    ((retuneOnePoint M v f).impliedAffine.a = M.impliedAffine.a ∧
     (retuneOnePoint M v f).impliedAffine.b = M.impliedAffine.b ∧
     (retuneOnePoint M v f).impliedAffine.c = M.impliedAffine.c ∧
     (retuneOnePoint M v f).impliedAffine.d = M.impliedAffine.d ∧
     (retuneOnePoint M v f).impliedAffine.ty = M.impliedAffine.ty) ∧
    (retuneWithAffine (retuneOnePoint M v f).impliedAffine nodes).map
      Node.natural = nodes.map Node.natural := by
  have himp : (retuneOnePoint M v f).impliedAffine =
      { M.impliedAffine with
        tx := M.impliedAffine.tx + (f - (M.impliedAffine.applyI v).1) } := by
    unfold retuneOnePoint
    exact recalcOnRetune_impliedAffine _ _
  have hx : ((retuneOnePoint M v f).impliedAffine.applyI v).1 = f := by
    rw [himp]
    unfold AffineTransform.applyI AffineTransform.apply
    ring
  refine ⟨hx, ?_, ?_, ?_⟩
  · unfold coordToFreq
    have : ((retuneOnePoint M v f).impliedAffine.apply ((v.1 : ℚ), (v.2 : ℚ))).1
        = f := hx
    rw [this]
  · rw [himp]
    exact ⟨rfl, rfl, rfl, rfl, rfl⟩
  · unfold retuneWithAffine
    rw [List.map_map]
    rfl


/-! ### Concrete implied affines, for witnesses and counterexamples -/

theorem mosOf_21_affine :
    (mosOf 2 1 0 1 (1 / 2)).impliedAffine =
      ⟨1 / 2, 0, 1 / 3, -2 / 3, 0, 1 / 6⟩ := by
  rw [mosOf_impliedAffine]
  rw [show (2 : ℤ).toNat = 2 from rfl, show (1 : ℤ).toNat = 1 from rfl]
  rw [show gcdSrc 2 1 = 1 from by decide]
  rw [show applyPath (calcPath (2 / 1) (1 / 1)) (1, 0) = ((1 : ℤ), (0 : ℤ))
    from by decide]
  rw [show ((2 / 1 : ℕ) : ℤ) = 2 from by decide,
    show ((1 / 1 : ℕ) : ℤ) = 1 from by decide]
  rw [calcImpliedAffine_eq 2 1 (1, 0) 0 _ (1 / 2) (by decide)]
  simp only [Option.getD_some]
  norm_num

/-! ### C9: `retuneTwoPoints` divides by the image-difference without a guard -/

/-- C9: the divisor used by `retuneTwoPoints` is exactly
`(A*v).x - (A*fixed).x`; under the precondition that the current images of
`v` and `fixed` have distinct x-coordinates it is nonzero, and the scaling
factor is a genuine quotient (multiplying back by the divisor recovers the
numerator), so the operation is well-defined.  `retuneTwoPoints` itself is
total: no check of this precondition exists in the code. -/
theorem retuneTwoPoints_denominator (M : MOS) (fixed v : ℤ × ℤ) (f : ℚ)
    (h : (M.impliedAffine.applyI v).1 ≠ (M.impliedAffine.applyI fixed).1) :
    retuneTwoPointsDenom M fixed v ≠ 0 ∧
    retuneScaleFactor M fixed v f * retuneTwoPointsDenom M fixed v =
      f - (M.impliedAffine.applyI fixed).1 := by
  have hd : retuneTwoPointsDenom M fixed v ≠ 0 := sub_ne_zero.mpr h
  exact ⟨hd, div_mul_cancel₀ _ hd⟩

/-- Witness for C9 on a concrete MOS where the two image x-coordinates
differ. -/
theorem retuneTwoPoints_denominator_witness :
    retuneTwoPointsDenom (mosOf 2 1 0 1 (1 / 2)) (0, 0) (1, 0) ≠ 0 ∧
    retuneScaleFactor (mosOf 2 1 0 1 (1 / 2)) (0, 0) (1, 0) 1 *
      retuneTwoPointsDenom (mosOf 2 1 0 1 (1 / 2)) (0, 0) (1, 0) =
      1 - ((mosOf 2 1 0 1 (1 / 2)).impliedAffine.applyI (0, 0)).1 := by
  refine retuneTwoPoints_denominator (mosOf 2 1 0 1 (1 / 2)) (0, 0) (1, 0) 1 ?_
  rw [mosOf_21_affine]
  unfold AffineTransform.applyI AffineTransform.apply
  norm_num

/-! ### C2: normalization and the pitch invariant -/

/-- C2 (amended): `recalcWithAffine` checks nothing and renormalizes
nothing; it is the caller's obligation to pass a normalized transform.
Whenever the transform is normalized in x (`(A(0,0)).x = 0`), every node of
the generated scale — for any step pair — satisfies
`pitch = base_freq * 2^(tuning_coord.x)` exactly: the non-root nodes by
construction, the root node because its `tuning_coord.x` is then `0`. -/
theorem recalcPitch_consistent (A : AffineTransform) (r s : ℤ × ℤ)
    (root_idx : ℕ) (base : ℝ) (h : (A.applyI (0, 0)).1 = 0) (i : ℕ) :
    recalcPitch base A r s root_idx i =
      base * (2 : ℝ) ^ (((recalcNode A r s root_idx i).tuning.1 : ℝ)) := by
  unfold recalcPitch
  by_cases hi : i = root_idx
  · rw [if_pos hi, hi]
    have hroot : (recalcNode A r s root_idx root_idx).tuning.1 = 0 := by
      unfold recalcNode
      rw [if_pos le_rfl, Nat.sub_self]
      exact h
    rw [hroot]
    rw [show (((0 : ℚ) : ℝ)) = (0 : ℝ) by norm_num, Real.rpow_zero]
    ring
  · rw [if_neg hi]

/-- Witness for (the amended) C2 on the identity transform. -/
theorem recalcPitch_consistent_witness :
    recalcPitch 1 AffineTransform.ident (1, 0) (0, 1) 0 0 =
      1 * (2 : ℝ) ^
        (((recalcNode AffineTransform.ident (1, 0) (0, 1) 0 0).tuning.1 : ℝ)) :=
  recalcPitch_consistent AffineTransform.ident (1, 0) (0, 1) 0 1
    (by norm_num [AffineTransform.ident, AffineTransform.applyI,
      AffineTransform.apply]) 0

/-- Counterexample to C2 as stated: for the un-normalized transform
`A = (1, 0, 0, 1, tx = 1, ty = 1/2)` (so `A(0,0) = (1, 1/2)` with `x = 1`),
`fromAffine` neither rejects nor renormalizes: the root node's
`tuning_coord` is `(1, 1/2)` as mapped, its pitch is the raw `base_freq`,
and the invariant `pitch = base_freq * 2^(tuning_coord.x)` fails
(`1 ≠ 2^1`). -/
theorem recalcPitch_unnormalized_counterexample :
    (recalcNode ⟨1, 0, 0, 1, 1, 1 / 2⟩ (1, 0) (0, 1) 0 0).tuning = (1, 1 / 2) ∧
    recalcPitch 1 ⟨1, 0, 0, 1, 1, 1 / 2⟩ (1, 0) (0, 1) 0 0 ≠
      1 * (2 : ℝ) ^
        (((recalcNode ⟨1, 0, 0, 1, 1, 1 / 2⟩ (1, 0) (0, 1) 0 0).tuning.1 : ℝ)) := by
  have h1 : (recalcNode ⟨1, 0, 0, 1, 1, 1 / 2⟩ (1, 0) (0, 1) 0 0).tuning
      = ((1 : ℚ), (1 / 2 : ℚ)) := by
    unfold recalcNode fwdNode rootNode AffineTransform.applyI AffineTransform.apply
    norm_num
  refine ⟨h1, ?_⟩
  unfold recalcPitch
  rw [if_pos rfl, h1]
  rw [show ((((1 : ℚ), (1 / 2 : ℚ)).1 : ℝ)) = (1 : ℝ) by norm_num, Real.rpow_one]
  norm_num

/-! ### C1: path ordering of generated scales -/

theorem applyI_add (A : AffineTransform) (p q : ℤ × ℤ) :
    A.applyI (p + q) =
      ((A.applyI p).1 + (A.lin.applyI q).1, (A.applyI p).2 + (A.lin.applyI q).2) := by
  unfold AffineTransform.applyI AffineTransform.apply AffineTransform.lin
  simp only [Prod.fst_add, Prod.snd_add, Prod.mk.injEq]
  push_cast
  constructor <;> ring

theorem applyI_sub (A : AffineTransform) (p q : ℤ × ℤ) :
    A.applyI (p - q) =
      ((A.applyI p).1 - (A.lin.applyI q).1, (A.applyI p).2 - (A.lin.applyI q).2) := by
  unfold AffineTransform.applyI AffineTransform.apply AffineTransform.lin
  simp only [Prod.fst_sub, Prod.snd_sub, Prod.mk.injEq]
  push_cast
  constructor <;> ring

theorem stripStep_natural (A : AffineTransform) (r s : ℤ × ℤ) (last : Node) :
    (stripStep A r s last).natural =
      if inStrip (last.tuning.2 + (A.lin.applyI r).2) then last.natural + r
      else if inStrip (last.tuning.2 + (A.lin.applyI s).2) then last.natural + s
      else last.natural + (r + s) := by
  rfl

theorem stripStep_tuning (A : AffineTransform) (r s : ℤ × ℤ) (last : Node) :
    (stripStep A r s last).tuning = A.applyI (stripStep A r s last).natural := rfl

theorem stripStepBack_natural (A : AffineTransform) (r s : ℤ × ℤ) (last : Node) :
    (stripStepBack A r s last).natural =
      if inStrip (last.tuning.2 - (A.lin.applyI r).2) then last.natural - r
      else if inStrip (last.tuning.2 - (A.lin.applyI s).2) then last.natural - s
      else last.natural - (r + s) := by
  rfl

theorem stripStepBack_tuning (A : AffineTransform) (r s : ℤ × ℤ) (last : Node) :
    (stripStepBack A r s last).tuning = A.applyI (stripStepBack A r s last).natural := rfl

theorem fwdNode_tuning (A : AffineTransform) (r s : ℤ × ℤ) (k : ℕ) :
    (fwdNode A r s k).tuning = A.applyI (fwdNode A r s k).natural := by
  cases k with
  | zero => rfl
  | succ k => exact stripStep_tuning A r s (fwdNode A r s k)

theorem bwdNode_tuning (A : AffineTransform) (r s : ℤ × ℤ) (k : ℕ) :
    (bwdNode A r s k).tuning = A.applyI (bwdNode A r s k).natural := by
  cases k with
  | zero => rfl
  | succ k => exact stripStepBack_tuning A r s (bwdNode A r s k)

theorem fwdNode_inStrip (A : AffineTransform) (r s : ℤ × ℤ)
    (hny : inStrip ((A.applyI (0, 0)).2))
    (hcovF : ∀ t : ℚ, inStrip t →
      inStrip (t + (A.lin.applyI r).2) ∨ inStrip (t + (A.lin.applyI s).2)) :
    ∀ k : ℕ, inStrip ((fwdNode A r s k).tuning.2) := by
  intro k
  induction k with
  | zero => exact hny
  | succ k ih =>
      have ht := fwdNode_tuning A r s k
      show inStrip ((stripStep A r s (fwdNode A r s k)).tuning.2)
      rw [stripStep_tuning, stripStep_natural]
      by_cases c1 : inStrip ((fwdNode A r s k).tuning.2 + (A.lin.applyI r).2)
      · rw [if_pos c1, applyI_add, ← ht]
        exact c1
      · rw [if_neg c1]
        by_cases c2 : inStrip ((fwdNode A r s k).tuning.2 + (A.lin.applyI s).2)
        · rw [if_pos c2, applyI_add, ← ht]
          exact c2
        · exact absurd (hcovF _ ih) (by simp [c1, c2])

theorem bwdNode_inStrip (A : AffineTransform) (r s : ℤ × ℤ)
    (hny : inStrip ((A.applyI (0, 0)).2))
    (hcovB : ∀ t : ℚ, inStrip t →
      inStrip (t - (A.lin.applyI r).2) ∨ inStrip (t - (A.lin.applyI s).2)) :
    ∀ k : ℕ, inStrip ((bwdNode A r s k).tuning.2) := by
  intro k
  induction k with
  | zero => exact hny
  | succ k ih =>
      have ht := bwdNode_tuning A r s k
      show inStrip ((stripStepBack A r s (bwdNode A r s k)).tuning.2)
      rw [stripStepBack_tuning, stripStepBack_natural]
      by_cases c1 : inStrip ((bwdNode A r s k).tuning.2 - (A.lin.applyI r).2)
      · rw [if_pos c1, applyI_sub, ← ht]
        exact c1
      · rw [if_neg c1]
        by_cases c2 : inStrip ((bwdNode A r s k).tuning.2 - (A.lin.applyI s).2)
        · rw [if_pos c2, applyI_sub, ← ht]
          exact c2
        · exact absurd (hcovB _ ih) (by simp [c1, c2])

theorem fwdNode_x_lt (A : AffineTransform) (r s : ℤ × ℤ)
    (hrx : 0 < (A.lin.applyI r).1) (hsx : 0 < (A.lin.applyI s).1) (k : ℕ) :
    (fwdNode A r s k).tuning.1 < (fwdNode A r s (k + 1)).tuning.1 := by
  have ht := fwdNode_tuning A r s k
  show _ < (stripStep A r s (fwdNode A r s k)).tuning.1
  rw [stripStep_tuning, stripStep_natural]
  have hrsx : 0 < (A.lin.applyI (r + s)).1 := by
    have := applyI_add A.lin r s
    have hlin : A.lin.lin = A.lin := rfl
    rw [hlin] at this
    rw [this]
    dsimp only
    linarith
  split_ifs with c1 c2
  · rw [applyI_add, ← ht]
    dsimp only
    linarith
  · rw [applyI_add, ← ht]
    dsimp only
    linarith
  · rw [applyI_add, ← ht]
    dsimp only
    linarith

theorem bwdNode_x_lt (A : AffineTransform) (r s : ℤ × ℤ)
    (hrx : 0 < (A.lin.applyI r).1) (hsx : 0 < (A.lin.applyI s).1) (k : ℕ) :
    (bwdNode A r s (k + 1)).tuning.1 < (bwdNode A r s k).tuning.1 := by
  have ht := bwdNode_tuning A r s k
  show (stripStepBack A r s (bwdNode A r s k)).tuning.1 < _
  rw [stripStepBack_tuning, stripStepBack_natural]
  have hrsx : 0 < (A.lin.applyI (r + s)).1 := by
    have := applyI_add A.lin r s
    have hlin : A.lin.lin = A.lin := rfl
    rw [hlin] at this
    rw [this]
    dsimp only
    linarith
  split_ifs with c1 c2
  · rw [applyI_sub, ← ht]
    dsimp only
    linarith
  · rw [applyI_sub, ← ht]
    dsimp only
    linarith
  · rw [applyI_sub, ← ht]
    dsimp only
    linarith

/-- C1 (amended): for a normalized transform and any step pair whose linear
images both have strictly positive x-components and which covers the strip
in both traversal directions (from any strip point, stepping forward — and
stepping backward — by one of the two vectors stays in the strip), the
generated scale has strictly increasing `tuning_coord.x` and every node's
`tuning_coord.y` in `[0, 1)`; the `r + s` fallback branch is then never the
one that places a node.  (Positivity of the x-images is not implied by the
spec's minimal-y characterisation of the step pair: see the
counterexample.) -/
theorem scale_path_ordering (A : AffineTransform) (r s : ℤ × ℤ) (root_idx : ℕ)
    (hnx : (A.applyI (0, 0)).1 = 0)
    (hny : inStrip ((A.applyI (0, 0)).2))
    (hrx : 0 < (A.lin.applyI r).1) (hsx : 0 < (A.lin.applyI s).1)
    (hcovF : ∀ t : ℚ, inStrip t →
      inStrip (t + (A.lin.applyI r).2) ∨ inStrip (t + (A.lin.applyI s).2))
    (hcovB : ∀ t : ℚ, inStrip t →
      inStrip (t - (A.lin.applyI r).2) ∨ inStrip (t - (A.lin.applyI s).2)) :
    (∀ i j : ℕ, i < j →
      (recalcNode A r s root_idx i).tuning.1 <
        (recalcNode A r s root_idx j).tuning.1) ∧
    (∀ i : ℕ, inStrip ((recalcNode A r s root_idx i).tuning.2)) := by
  have hmono : StrictMono (fun i => (recalcNode A r s root_idx i).tuning.1) := by
    apply strictMono_nat_of_lt_succ
    intro i
    by_cases hi : root_idx ≤ i
    · have h1 : recalcNode A r s root_idx i = fwdNode A r s (i - root_idx) :=
        if_pos hi
      have h2 : recalcNode A r s root_idx (i + 1) =
          fwdNode A r s (i + 1 - root_idx) := if_pos (by omega)
      show (recalcNode A r s root_idx i).tuning.1 <
        (recalcNode A r s root_idx (i + 1)).tuning.1
      rw [h1, h2, show i + 1 - root_idx = (i - root_idx) + 1 by omega]
      exact fwdNode_x_lt A r s hrx hsx _
    · have h1 : recalcNode A r s root_idx i = bwdNode A r s (root_idx - i) :=
        if_neg hi
      show (recalcNode A r s root_idx i).tuning.1 <
        (recalcNode A r s root_idx (i + 1)).tuning.1
      by_cases hi2 : root_idx ≤ i + 1
      · have h2 : recalcNode A r s root_idx (i + 1) =
            fwdNode A r s (i + 1 - root_idx) := if_pos hi2
        rw [h1, h2, show i + 1 - root_idx = 0 by omega,
          show root_idx - i = 1 by omega]
        exact bwdNode_x_lt A r s hrx hsx 0
      · have h2 : recalcNode A r s root_idx (i + 1) =
            bwdNode A r s (root_idx - (i + 1)) := if_neg hi2
        rw [h1, h2, show root_idx - i = (root_idx - (i + 1)) + 1 by omega]
        exact bwdNode_x_lt A r s hrx hsx _
  refine ⟨fun i j hij => hmono hij, ?_⟩
  intro i
  unfold recalcNode
  split
  · exact fwdNode_inStrip A r s hny hcovF _
  · exact bwdNode_inStrip A r s hny hcovB _

/-- Witness for (the amended) C1 on a concrete normalized transform and
step pair. -/
theorem scale_path_ordering_witness :
    (recalcNode ⟨1, 1, 1 / 2, -1 / 2, 0, 1 / 2⟩ (1, 0) (0, 1) 0 0).tuning.1 <
      (recalcNode ⟨1, 1, 1 / 2, -1 / 2, 0, 1 / 2⟩ (1, 0) (0, 1) 0 1).tuning.1 ∧
    inStrip ((recalcNode ⟨1, 1, 1 / 2, -1 / 2, 0, 1 / 2⟩ (1, 0) (0, 1) 0 1).tuning.2) := by
  have hzr2 : (((⟨1, 1, 1 / 2, -1 / 2, 0, 1 / 2⟩ : AffineTransform)).lin.applyI (1, 0)).2
      = 1 / 2 := by
    norm_num [AffineTransform.lin, AffineTransform.applyI, AffineTransform.apply]
  have hzs2 : (((⟨1, 1, 1 / 2, -1 / 2, 0, 1 / 2⟩ : AffineTransform)).lin.applyI (0, 1)).2
      = -(1 / 2) := by
    norm_num [AffineTransform.lin, AffineTransform.applyI, AffineTransform.apply]
  have h := scale_path_ordering ⟨1, 1, 1 / 2, -1 / 2, 0, 1 / 2⟩ (1, 0) (0, 1) 0
    (by norm_num [AffineTransform.applyI, AffineTransform.apply])
    (by constructor <;>
      norm_num [AffineTransform.applyI, AffineTransform.apply])
    (by norm_num [AffineTransform.lin, AffineTransform.applyI, AffineTransform.apply])
    (by norm_num [AffineTransform.lin, AffineTransform.applyI, AffineTransform.apply])
    (by
      rw [hzr2, hzs2]
      intro t ht
      obtain ⟨ht0, ht1⟩ := ht
      by_cases htc : t < 1 / 2
      · exact Or.inl ⟨by linarith, by linarith⟩
      · exact Or.inr ⟨by linarith, by linarith⟩)
    (by
      rw [hzr2, hzs2]
      intro t ht
      obtain ⟨ht0, ht1⟩ := ht
      by_cases htc : t < 1 / 2
      · exact Or.inr ⟨by linarith, by linarith⟩
      · exact Or.inl ⟨by linarith, by linarith⟩)
  exact ⟨h.1 0 1 (by norm_num), h.2 1⟩

/-- The transform of the C1 counterexample: normalized
(`A(0,0) = (0, 3/4)`), non-degenerate (`det = 1/4`), with linear images
`(1,0) ↦ (-1, 1/2)` and `(0,1) ↦ (1/2, -1/2)`. -/
def cexAffine : AffineTransform := ⟨-1, 1 / 2, 1 / 2, -1 / 2, 0, 3 / 4⟩

theorem cexAffine_y (w : ℤ × ℤ) :
    (cexAffine.lin.applyI w).2 = ((w.1 - w.2 : ℤ) : ℚ) / 2 := by
  unfold cexAffine AffineTransform.lin AffineTransform.applyI AffineTransform.apply
  push_cast
  ring

/-- Counterexample to C1 as stated: `cexAffine` is normalized and
non-degenerate, and `((1,0), (0,1))` is a step pair matching the spec's
characterisation of `findClosestWithinStrip` (smallest positive /
smallest-magnitude negative y-image, strip-covering in both directions) —
yet the generated scale is not ordered: node 2's `tuning_coord.x` is below
node 1's, because the smallest-positive-y step has a negative x-image. -/
theorem scale_path_ordering_counterexample :
    (cexAffine.applyI (0, 0)).1 = 0 ∧ inStrip ((cexAffine.applyI (0, 0)).2) ∧
    cexAffine.det ≠ 0 ∧
    specStepPair cexAffine.lin (1, 0) (0, 1) ∧
    (recalcNode cexAffine (1, 0) (0, 1) 0 2).tuning.1 <
      (recalcNode cexAffine (1, 0) (0, 1) 0 1).tuning.1 := by
  refine ⟨?_, ?_, ?_, ?_, ?_⟩
  · norm_num [cexAffine, AffineTransform.applyI, AffineTransform.apply]
  · constructor <;>
      norm_num [cexAffine, AffineTransform.applyI, AffineTransform.apply, inStrip]
  · norm_num [cexAffine, AffineTransform.det]
  · refine ⟨?_, ?_, ?_, ?_, ?_, ?_⟩
    · rw [cexAffine_y]
      norm_num
    · intro w hw
      simp only [cexAffine_y] at hw ⊢
      have h1 : (0 : ℤ) < w.1 - w.2 := by
        by_contra hcon
        push_neg at hcon
        have : ((w.1 - w.2 : ℤ) : ℚ) ≤ 0 := by exact_mod_cast hcon
        linarith
      have h2 : ((1 : ℤ) : ℚ) ≤ ((w.1 - w.2 : ℤ) : ℚ) := by exact_mod_cast h1
      push_cast at h2 ⊢
      linarith
    · rw [cexAffine_y]
      norm_num
    · intro w hw
      simp only [cexAffine_y] at hw ⊢
      have h1 : w.1 - w.2 ≤ (-1 : ℤ) := by
        by_contra hcon
        push_neg at hcon
        have : (0 : ℤ) ≤ w.1 - w.2 := by omega
        have : (0 : ℚ) ≤ ((w.1 - w.2 : ℤ) : ℚ) := by exact_mod_cast this
        linarith
      have h2 : ((w.1 - w.2 : ℤ) : ℚ) ≤ ((-1 : ℤ) : ℚ) := by exact_mod_cast h1
      push_cast at h2 ⊢
      linarith
    · rw [cexAffine_y, cexAffine_y]
      intro t ht
      obtain ⟨ht0, ht1⟩ := ht
      norm_num
      by_cases htc : t < 1 / 2
      · exact Or.inl ⟨by linarith, by linarith⟩
      · exact Or.inr ⟨by linarith, by linarith⟩
    · rw [cexAffine_y, cexAffine_y]
      intro t ht
      obtain ⟨ht0, ht1⟩ := ht
      norm_num
      by_cases htc : t < 1 / 2
      · exact Or.inr ⟨by linarith, by linarith⟩
      · exact Or.inl ⟨by linarith, by linarith⟩
  · have e1 : recalcNode cexAffine (1, 0) (0, 1) 0 1 =
        stripStep cexAffine (1, 0) (0, 1) (rootNode cexAffine) := rfl
    have e2 : recalcNode cexAffine (1, 0) (0, 1) 0 2 =
        stripStep cexAffine (1, 0) (0, 1)
          (stripStep cexAffine (1, 0) (0, 1) (rootNode cexAffine)) := rfl
    have h1 : stripStep cexAffine (1, 0) (0, 1) (rootNode cexAffine) =
        { natural := ((0 : ℤ), (1 : ℤ)), tuning := (1 / 2, 1 / 4) } := by
      unfold stripStep rootNode cexAffine AffineTransform.lin
        AffineTransform.applyI AffineTransform.apply
      norm_num [Prod.mk_add_mk]
    have h2 : stripStep cexAffine (1, 0) (0, 1)
        { natural := ((0 : ℤ), (1 : ℤ)), tuning := ((1 / 2 : ℚ), (1 / 4 : ℚ)) } =
        { natural := ((1 : ℤ), (1 : ℤ)), tuning := (-(1 / 2), 3 / 4) } := by
      unfold stripStep cexAffine AffineTransform.lin
        AffineTransform.applyI AffineTransform.apply
      norm_num [Prod.mk_add_mk]
    rw [e1, e2, h1, h2]
    norm_num

/-! ### C3: algebraic membership vs. strip membership -/

/-- For a linear map whose y-image of `(x, y)` is `(x - y)/2`, the pair
`((1,0), (0,1))` satisfies the spec's characterisation of
`findClosestWithinStrip`. -/
theorem specStepPair_of_half (A : AffineTransform)
    (hy : ∀ w : ℤ × ℤ, (A.applyI w).2 = ((w.1 - w.2 : ℤ) : ℚ) / 2) :
    specStepPair A (1, 0) (0, 1) := by
  refine ⟨?_, ?_, ?_, ?_, ?_, ?_⟩
  · rw [hy]
    norm_num
  · intro w hw
    simp only [hy] at hw ⊢
    have h1 : (0 : ℤ) < w.1 - w.2 := by
      by_contra hcon
      push_neg at hcon
      have : ((w.1 - w.2 : ℤ) : ℚ) ≤ 0 := by exact_mod_cast hcon
      linarith
    have h2 : ((1 : ℤ) : ℚ) ≤ ((w.1 - w.2 : ℤ) : ℚ) := by exact_mod_cast h1
    push_cast at h2 ⊢
    linarith
  · rw [hy]
    norm_num
  · intro w hw
    simp only [hy] at hw ⊢
    have h1 : w.1 - w.2 ≤ (-1 : ℤ) := by
      by_contra hcon
      push_neg at hcon
      have h0 : (0 : ℤ) ≤ w.1 - w.2 := by omega
      have : (0 : ℚ) ≤ ((w.1 - w.2 : ℤ) : ℚ) := by exact_mod_cast h0
      linarith
    have h2 : ((w.1 - w.2 : ℤ) : ℚ) ≤ ((-1 : ℤ) : ℚ) := by exact_mod_cast h1
    push_cast at h2 ⊢
    linarith
  · simp only [hy]
    intro t ht
    obtain ⟨ht0, ht1⟩ := ht
    norm_num
    by_cases htc : t < 1 / 2
    · exact Or.inl ⟨by linarith, by linarith⟩
    · exact Or.inr ⟨by linarith, by linarith⟩
  · simp only [hy]
    intro t ht
    obtain ⟨ht0, ht1⟩ := ht
    norm_num
    by_cases htc : t < 1 / 2
    · exact Or.inr ⟨by linarith, by linarith⟩
    · exact Or.inl ⟨by linarith, by linarith⟩

theorem mosOf_22_affine :
    (mosOf 2 2 1 1 (3 / 5)).impliedAffine =
      ⟨3 / 10, 1 / 5, 1 / 2, -1 / 2, 0, 3 / 4⟩ := by
  rw [mosOf_impliedAffine]
  rw [show (2 : ℤ).toNat = 2 from rfl]
  rw [show gcdSrc 2 2 = 2 from by decide]
  rw [show applyPath (calcPath (2 / 2) (2 / 2)) (1, 0) = ((1 : ℤ), (0 : ℤ))
    from by decide]
  rw [show ((2 / 2 : ℕ) : ℤ) = 1 from by decide]
  rw [show ((2 : ℕ) : ℚ) = 2 from by norm_num]
  rw [calcImpliedAffine_eq 1 1 (1, 0) 1 _ (3 / 5) (by decide)]
  simp only [Option.getD_some]
  norm_num

/-- Counterexample to C3 as stated: for the valid MOS
`(a = 2, b = 2, mode = 1, equave = 1, generator = 3/5)` (repetitions = 2),
with the spec-conformant step pair `((1,0), (0,1))` for its implied
transform, generation places node 1 at `natural_coord = (0, 1)` — inside
the strip — yet `nodeInScale((0,1))` is `false`: the algebraic test uses
the full counts `a, b, n` while the strip slices by the reduced
`a0, b0, n0`, and the two disagree when `gcd(a, b) > 1`. -/
theorem nodeInScale_generation_counterexample :
    (mosOf 2 2 1 1 (3 / 5)).n = 4 ∧
    specStepPair (mosOf 2 2 1 1 (3 / 5)).impliedAffine.lin (1, 0) (0, 1) ∧
    (recalcNode (mosOf 2 2 1 1 (3 / 5)).impliedAffine (1, 0) (0, 1) 0 1).natural
      = (0, 1) ∧
    inStrip ((recalcNode (mosOf 2 2 1 1 (3 / 5)).impliedAffine
      (1, 0) (0, 1) 0 1).tuning.2) ∧
    nodeInScale (mosOf 2 2 1 1 (3 / 5)) (0, 1) = false := by
  have hy : ∀ w : ℤ × ℤ,
      (((⟨3 / 10, 1 / 5, 1 / 2, -1 / 2, 0, 3 / 4⟩ : AffineTransform)).lin.applyI w).2
        = ((w.1 - w.2 : ℤ) : ℚ) / 2 := by
    intro w
    unfold AffineTransform.lin AffineTransform.applyI AffineTransform.apply
    push_cast
    ring
  have hnode : recalcNode (⟨3 / 10, 1 / 5, 1 / 2, -1 / 2, 0, 3 / 4⟩ : AffineTransform)
      (1, 0) (0, 1) 0 1 =
      { natural := ((0 : ℤ), (1 : ℤ)), tuning := (1 / 5, 1 / 4) } := by
    have e1 : recalcNode (⟨3 / 10, 1 / 5, 1 / 2, -1 / 2, 0, 3 / 4⟩ : AffineTransform)
        (1, 0) (0, 1) 0 1 =
        stripStep ⟨3 / 10, 1 / 5, 1 / 2, -1 / 2, 0, 3 / 4⟩ (1, 0) (0, 1)
          (rootNode ⟨3 / 10, 1 / 5, 1 / 2, -1 / 2, 0, 3 / 4⟩) := rfl
    rw [e1]
    unfold stripStep rootNode AffineTransform.lin
      AffineTransform.applyI AffineTransform.apply
    norm_num [Prod.mk_add_mk]
  refine ⟨by rw [mosOf_n]; decide, ?_, ?_, ?_, ?_⟩
  · rw [mosOf_22_affine]
    exact specStepPair_of_half _ hy
  · rw [mosOf_22_affine, hnode]
  · rw [mosOf_22_affine, hnode]
    constructor <;> norm_num
  · simp only [nodeInScale, mosOf_a, mosOf_b, mosOf_mode, mosOf_n]
    decide

/-- The y-row of the implied affine, in closed form: when
`v_gen.x * b0 - v_gen.y * a0 = 1`, the fitted transform sends a lattice
point `v` to y-coordinate `(2*(v.x*b0 - v.y*a0 + mode) + 1) / (2*n0)`. -/
theorem calcImpliedAffine_y (a0 b0 : ℤ) (vg : ℤ × ℤ) (m : ℤ) (period g : ℚ)
    (hdet : vg.1 * b0 - vg.2 * a0 = 1) (hn0 : (0 : ℤ) < a0 + b0) (v : ℤ × ℤ) :
    (((calcImpliedAffine a0 b0 vg m period g).getD AffineTransform.ident).applyI v).2
      = ((2 * (v.1 * b0 - v.2 * a0 + m) + 1 : ℤ) : ℚ) / (2 * ((a0 + b0 : ℤ) : ℚ)) := by
  have hden : ((a0 : ℚ)) + ((b0 : ℚ)) ≠ 0 := by
    have h2 : (0 : ℚ) < ((a0 + b0 : ℤ) : ℚ) := by exact_mod_cast hn0
    push_cast at h2
    linarith
  rw [calcImpliedAffine_eq a0 b0 vg m period g hdet]
  simp only [Option.getD_some]
  unfold AffineTransform.applyI AffineTransform.apply
  push_cast
  field_simp
  ring

/-- The strip condition on the closed-form y-image is the integer window
`0 ≤ k < n`. -/
theorem strip_iff_int (k n : ℤ) (hn : 0 < n) :
    inStrip (((2 * k + 1 : ℤ) : ℚ) / (2 * ((n : ℤ) : ℚ))) ↔ (0 ≤ k ∧ k < n) := by
  have hnq : (0 : ℚ) < ((n : ℤ) : ℚ) := by exact_mod_cast hn
  have h2n : (0 : ℚ) < 2 * ((n : ℤ) : ℚ) := by linarith
  unfold inStrip
  constructor
  · rintro ⟨h0, h1⟩
    have hx0 : (0 : ℚ) ≤ ((2 * k + 1 : ℤ) : ℚ) := by
      by_contra hcon
      push_neg at hcon
      have := div_neg_of_neg_of_pos hcon h2n
      linarith
    have hx1 : ((2 * k + 1 : ℤ) : ℚ) < 2 * ((n : ℤ) : ℚ) := by
      have := (div_lt_one h2n).mp h1
      linarith
    have hz0 : (0 : ℤ) ≤ 2 * k + 1 := by exact_mod_cast hx0
    have hz1 : (2 * k + 1 : ℤ) < 2 * n := by exact_mod_cast hx1
    omega
  · rintro ⟨h0, h1⟩
    have hz0 : (0 : ℤ) ≤ 2 * k + 1 := by omega
    have hz1 : (2 * k + 1 : ℤ) < 2 * n := by omega
    have hx0 : (0 : ℚ) ≤ ((2 * k + 1 : ℤ) : ℚ) := by exact_mod_cast hz0
    have hx1 : ((2 * k + 1 : ℤ) : ℚ) < 2 * ((n : ℤ) : ℚ) := by exact_mod_cast hz1
    constructor
    · positivity
    · rw [div_lt_one h2n]
      exact hx1

theorem mosOf_implied_coprime (a b m : ℤ) (e g : ℚ) (ha : 1 ≤ a) (hb : 1 ≤ b)
    (hcop : Int.gcd a b = 1) :
    (mosOf a b m e g).impliedAffine =
      (calcImpliedAffine a b (applyPath (calcPath a.toNat b.toNat) (1, 0)) m
        e g).getD AffineTransform.ident := by
  rw [mosOf_impliedAffine]
  have hgs : gcdSrc a.toNat b.toNat = 1 := by
    rw [gcdSrc_eq, show a.toNat = a.natAbs by omega, show b.toNat = b.natAbs by omega]
    exact hcop
  rw [hgs, Nat.div_one, Nat.div_one,
    Int.toNat_of_nonneg (by omega : (0 : ℤ) ≤ a),
    Int.toNat_of_nonneg (by omega : (0 : ℤ) ≤ b)]
  norm_num

theorem mosOf_vgen_det (a b : ℤ) (ha : 1 ≤ a) (hb : 1 ≤ b)
    (hcop : Int.gcd a b = 1) :
    (applyPath (calcPath a.toNat b.toNat) (1, 0)).1 * b -
      (applyPath (calcPath a.toNat b.toNat) (1, 0)).2 * a = 1 := by
  have h := idet_v_gen a.toNat b.toNat (by omega) (by omega)
    (by rw [show a.toNat = a.natAbs by omega, show b.toNat = b.natAbs by omega]
        exact hcop)
  unfold idet at h
  rw [Int.toNat_of_nonneg (by omega : (0 : ℤ) ≤ a),
    Int.toNat_of_nonneg (by omega : (0 : ℤ) ≤ b)] at h
  exact h

theorem recalcNode_tuning (A : AffineTransform) (r s : ℤ × ℤ) (root_idx i : ℕ) :
    (recalcNode A r s root_idx i).tuning =
      A.applyI (recalcNode A r s root_idx i).natural := by
  unfold recalcNode
  split
  · exact fwdNode_tuning A r s _
  · exact bwdNode_tuning A r s _

/-- C3 (amended): for a valid MOS with `gcd(a,b) = 1` (repetitions = 1),
the algebraic test `nodeInScale` agrees exactly with strip membership
under the implied transform — for every lattice vector, hence in
particular for every node produced by generation (second conjunct: with a
valid mode and a strip-covering step pair, every generated node passes
`nodeInScale`).  For `gcd(a,b) > 1` the two tests part ways: see the
counterexample. -/
theorem nodeInScale_agrees (a b m : ℤ) (e g : ℚ) (ha : 1 ≤ a) (hb : 1 ≤ b)
    (hcop : Int.gcd a b = 1) :
    (∀ v : ℤ × ℤ, nodeInScale (mosOf a b m e g) v = true ↔
      inStrip (((mosOf a b m e g).impliedAffine.applyI v).2)) ∧
    (0 ≤ m → m < a + b →
      ∀ r s : ℤ × ℤ,
      (∀ t : ℚ, inStrip t →
        inStrip (t + ((mosOf a b m e g).impliedAffine.lin.applyI r).2) ∨
        inStrip (t + ((mosOf a b m e g).impliedAffine.lin.applyI s).2)) →
      (∀ t : ℚ, inStrip t →
        inStrip (t - ((mosOf a b m e g).impliedAffine.lin.applyI r).2) ∨
        inStrip (t - ((mosOf a b m e g).impliedAffine.lin.applyI s).2)) →
      ∀ root_idx i : ℕ,
        nodeInScale (mosOf a b m e g)
          ((recalcNode (mosOf a b m e g).impliedAffine r s root_idx i).natural)
          = true) := by
  have hy : ∀ v : ℤ × ℤ, (((mosOf a b m e g).impliedAffine).applyI v).2 =
      ((2 * (v.1 * b - v.2 * a + m) + 1 : ℤ) : ℚ) / (2 * ((a + b : ℤ) : ℚ)) := by
    intro v
    rw [mosOf_implied_coprime a b m e g ha hb hcop]
    exact calcImpliedAffine_y a b _ m e g (mosOf_vgen_det a b ha hb hcop)
      (by omega) v
  have hiff : ∀ v : ℤ × ℤ, nodeInScale (mosOf a b m e g) v = true ↔
      inStrip (((mosOf a b m e g).impliedAffine.applyI v).2) := by
    intro v
    rw [hy v, strip_iff_int _ _ (by omega : (0 : ℤ) < a + b)]
    simp only [nodeInScale, mosOf_a, mosOf_b, mosOf_mode, mosOf_n]
    by_cases hc : v.1 * b - v.2 * a + m < 0 ∨ a + b ≤ v.1 * b - v.2 * a + m
    · rw [if_pos hc]
      constructor
      · intro hfalse
        exact absurd hfalse (by simp)
      · intro hk
        omega
    · rw [if_neg hc]
      constructor
      · intro _
        omega
      · intro _
        rfl
  refine ⟨hiff, ?_⟩
  intro hm0 hm1 r s hcovF hcovB root_idx i
  have hny : inStrip (((mosOf a b m e g).impliedAffine.applyI (0, 0)).2) := by
    rw [hy (0, 0), strip_iff_int _ _ (by omega : (0 : ℤ) < a + b)]
    constructor <;> omega
  have hstrip : inStrip
      ((recalcNode (mosOf a b m e g).impliedAffine r s root_idx i).tuning.2) := by
    unfold recalcNode
    split
    · exact fwdNode_inStrip _ r s hny hcovF _
    · exact bwdNode_inStrip _ r s hny hcovB _
  rw [recalcNode_tuning] at hstrip
  exact (hiff _).mpr hstrip

/-- Witness for (the amended) C3 on the MOS `(2, 1, 0, 1, 1/2)` at the
origin. -/
theorem nodeInScale_agrees_witness :
    nodeInScale (mosOf 2 1 0 1 (1 / 2)) (0, 0) = true := by
  refine ((nodeInScale_agrees 2 1 0 1 (1 / 2) (by norm_num) (by norm_num)
    (by decide)).1 (0, 0)).mpr ?_
  rw [mosOf_21_affine]
  unfold AffineTransform.applyI AffineTransform.apply inStrip
  norm_num

end Scalatrix
